import Mathlib

/-!
Verification of the event-to-frame integration engine of
`spikingjelly/datasets/__init__.py` (event-camera dataset preprocessing).

The Python functions are shallowly embedded: numpy integer arrays become
`List Nat` / `List Int`, numpy elementwise operations become list
recursions, and operations that can raise (`IndexError`,
`ZeroDivisionError`, `NotImplementedError`, or a non-terminating loop)
return `Option` (`none` models the raised exception / divergence).
-/

namespace SpikingJelly

/-- Canonical Event Record: a dict with keys t, x, y, p holding equal-length
numpy arrays.  Timestamps are signed integers; coordinates and polarity are
non-negative. -/
structure EventRecord where
  t : List Int
  x : List Nat
  y : List Nat
  p : List Nat
deriving DecidableEq

/-- Python slice-bound normalisation: for a sequence of length `n`, a slice
bound `i` denotes `n + i` (clamped below by 0) when negative, and
`min i n` when non-negative. -/
def pySliceIdx (n : Nat) (i : Int) : Nat :=
  if i < 0 then ((n : Int) + i).toNat else min i.toNat n

/-- Python slicing `l[jl:jr]`: the elements with indices in
`[pySliceIdx n jl, pySliceIdx n jr)`. -/
def pySlice (l : List α) (jl jr : Int) : List α :=
  (l.take (pySliceIdx l.length jr)).drop (pySliceIdx l.length jl)

/-- `np.bincount`: for a non-empty list of naturals, the length-`(max+1)`
list whose `v`-th entry is the number of occurrences of `v`; for the empty
list, the empty list (as numpy returns a length-0 array). -/
def bincount (l : List Nat) : List Nat :=
  match l with
  | [] => []
  | _ => (List.range (l.foldr max 0 + 1)).map (fun v => l.count v)

/-- `position = y[mask[c]] * W + x[mask[c]]` from
`integrate_events_segment_to_frame`: the flattened pixel indices of the
events of channel `c` (channel 0 keeps `p == 0`, channel 1 keeps the
logical complement `p != 0`).  The three arrays have equal length, so
zipping them loses nothing. -/
def maskedPositions (y x p : List Nat) (W : Nat) (c : Nat) : List Nat :=
  (((y.zip x).zip p).filter
      (fun e => if c = 0 then e.2 = 0 else e.2 ≠ 0)).map
    (fun e => e.1.1 * W + e.1.2)

/-- `integrate_events_segment_to_frame(events, H, W, j_l, j_r)` (the Python
defaults are `j_l = 0`, `j_r = -1`).  It slices `x`, `y`, `p` with
`[j_l:j_r]`, splits the slice by polarity, accumulates each channel with
`np.bincount(position)` added into a zero array of length `H*W`, and
reshapes to `[2, H, W]`.  The result here is the pre-reshape `[2, H*W]`
tensor (the reshape is bijective bookkeeping); `none` models the
`IndexError` raised when a flattened position reaches past `H*W`. -/
def integrate_events_segment_to_frame (events : EventRecord) (H W : Nat)
    (j_l j_r : Int) : Option (List (List Nat)) :=
  let x := pySlice events.x j_l j_r
  let y := pySlice events.y j_l j_r
  let p := pySlice events.p j_l j_r
  let bc0 := bincount (maskedPositions y x p W 0)
  let bc1 := bincount (maskedPositions y x p W 1)
  if bc0.length ≤ H * W ∧ bc1.length ≤ H * W then
    some [(List.range (H * W)).map (fun i => bc0.getD i 0),
          (List.range (H * W)).map (fun i => bc1.getD i 0)]
  else
    none

/-- One iteration `i` of the `split_by == 'time'` loop of
`cal_fixed_frames_number_segment_index`: mask the indices whose timestamp
lies in `[t0 + dt*i, t0 + dt*(i+1))` and return
`(idx_masked[0], idx_masked[-1] + 1)`; `none` models the `IndexError`
raised on an empty mask. -/
def timeSegment (events_t : List Int) (dt : Int) (i : Nat) :
    Option (Nat × Nat) :=
  let t_l := dt * (i : Int) + events_t.getD 0 0
  let t_r := t_l + dt
  match (List.range events_t.length).filter
      (fun k => decide (t_l ≤ events_t.getD k 0) &&
                decide (events_t.getD k 0 < t_r)) with
  | [] => none
  | a :: rest => some (a, (a :: rest).getLast (List.cons_ne_nil a rest) + 1)

/-- The `split_by == 'time'` loop over `i in range(frames_num)`: all
segments, or `none` as soon as one window is empty (the exception aborts
the whole computation, so all-or-nothing is the observable behaviour). -/
def timeSegList (events_t : List Int) (dt : Int) (frames_num : Nat) :
    Option (List (Nat × Nat)) :=
  if ∀ i ∈ List.range frames_num, (timeSegment events_t dt i).isSome then
    some ((List.range frames_num).map
      (fun i => (timeSegment events_t dt i).getD (0, 0)))
  else
    none

/-- The final `j_r[-1] = N` assignment: replace the right bound of the last
segment by `N`, leaving everything else unchanged. -/
def setLast (segs : List (Nat × Nat)) (N : Nat) : List (Nat × Nat) :=
  (List.range segs.length).map
    (fun i => if i + 1 = segs.length
              then ((segs.getD i (0, 0)).1, N)
              else segs.getD i (0, 0))

/-- `cal_fixed_frames_number_segment_index(events_t, split_by, frames_num)`.
`frames_num = 0` raises (`ZeroDivisionError` on `N // frames_num`, or
`IndexError` on `j_r[-1]`), and an unsupported `split_by` raises
`NotImplementedError`; both are modelled by `none`. -/
def cal_fixed_frames_number_segment_index (events_t : List Int)
    (split_by : String) (frames_num : Nat) : Option (List (Nat × Nat)) :=
  let N := events_t.length
  if frames_num = 0 then none
  else if split_by = "number" then
    let di := N / frames_num
    some (setLast ((List.range frames_num).map
      (fun i => (i * di, i * di + di))) N)
  else if split_by = "time" then
    let dt := Int.fdiv (events_t.getD (N - 1) 0 - events_t.getD 0 0)
      (frames_num : Int)
    match timeSegList events_t dt frames_num with
    | none => none
    | some segs => some (setLast segs N)
  else none

/-- The inner `while` of `integrate_events_by_fixed_duration`: advance
`right` while `right < N` and `t[right] - t_l <= duration`. -/
def extendRight (t : List Int) (t_l duration : Int) (right : Nat) : Nat :=
  if h : right < t.length then
    if t.getD right 0 - t_l ≤ duration then
      extendRight t t_l duration (right + 1)
    else right
  else right
termination_by t.length - right
decreasing_by omega

/-- The outer `while True` of `integrate_events_by_fixed_duration`, with
explicit fuel.  Each iteration reads `t[left]` (out of bounds when
`left >= N`, modelled by `none` — this is the `IndexError` on an empty
record), extends `right`, emits the segment `[left, right)`, and either
returns or continues with `left = right`.  Exhausted fuel (`none`) models
the loop not terminating. -/
def durationLoop (t : List Int) (duration : Int) :
    Nat → Nat → Option (List (Nat × Nat))
  | _, 0 => none
  | left, fuel + 1 =>
    if left < t.length then
      let right := extendRight t (t.getD left 0) duration left
      if right = t.length then some [(left, right)]
      else
        match durationLoop t duration right fuel with
        | none => none
        | some rest => some ((left, right) :: rest)
    else none

/-- The index ranges `[left, right)` produced by
`integrate_events_by_fixed_duration(events, duration, H, W)`, one per
appended frame.  `t.length + 1` units of fuel are enough for any run of
the Python loop that terminates (each iteration moves `left` forward by at
least one when it does not finish). -/
def fixed_duration_segments (events : EventRecord) (duration : Int) :
    Option (List (Nat × Nat)) :=
  durationLoop events.t duration 0 (events.t.length + 1)

/-- `integrate_events_by_fixed_duration(events, duration, H, W)`: one
integrated frame per produced segment. -/
def integrate_events_by_fixed_duration (events : EventRecord)
    (duration : Int) (H W : Nat) : Option (List (List (List Nat))) :=
  match fixed_duration_segments events duration with
  | none => none
  | some segs =>
    segs.mapM (fun s =>
      integrate_events_segment_to_frame events H W (s.1 : Int) (s.2 : Int))

/-- `l[k::5]` for a numpy 1-d array: every fifth element starting at the
head of `l.drop k`. -/
def everyNth5 : List Nat → List Nat
  | a :: _ :: _ :: _ :: _ :: rest => a :: everyNth5 rest
  | a :: _ => [a]
  | [] => []

/-- The elementwise uint32 computation
`((rd_2__5 & 127) << 16) | (raw_data[3::5] << 8) | (raw_data[4::5])`
of `load_ATIS_bin` (numpy broadcasts equal-length arrays; the stride
slices used here have equal length whenever the byte stream is a whole
number of 5-byte records). -/
def combineT : List Nat → List Nat → List Nat → List Nat
  | b2 :: r2, b3 :: r3, b4 :: r4 =>
    ((((b2 &&& 127) <<< 16) ||| (b3 <<< 8) ||| b4) % 2 ^ 32)
      :: combineT r2 r3 r4
  | _, _, _ => []

/-- `load_ATIS_bin(file_name)`: the raw bytes are read as uint8, regrouped
by stride-5 slicing into records `(x, y, b2, b3, b4)` with `x = b0`,
`y = b1`, `p = (b2 & 128) >> 7`, `t = ((b2 & 127) << 16) | (b3 << 8) | b4`.
When the stream length is `5k + 3` or `5k + 4` the three timestamp strides
have unequal lengths and numpy raises a broadcast `ValueError`, modelled
by `none`. -/
def load_ATIS_bin (raw_data : List Nat) : Option EventRecord :=
  if raw_data.length % 5 = 3 ∨ raw_data.length % 5 = 4 then none
  else
    let rd_2_5 := everyNth5 (raw_data.drop 2)
    some ⟨(combineT rd_2_5 (everyNth5 (raw_data.drop 3))
            (everyNth5 (raw_data.drop 4))).map Int.ofNat,
          everyNth5 raw_data,
          everyNth5 (raw_data.drop 1),
          rd_2_5.map (fun b => (b &&& 128) >>> 7)⟩

/-- `np.zeros([a, b, c])` as a nested list. -/
def zeros3 (a b c : Nat) : List (List (List Nat)) :=
  List.replicate a (List.replicate b (List.replicate c 0))

/-- The `PadFrames` transform (its single field `max_frames_number`). -/
structure PadFrames where
  max_frames_number : Nat

/-- `PadFrames.__call__(frames)`: when `frames.shape[0] <
max_frames_number`, concatenate that many all-zero frames whose spatial
shape `frames.shape[1:4]` is read off the (uniformly shaped) input;
otherwise return the input unchanged. -/
def PadFrames.call (self : PadFrames)
    (frames : List (List (List (List Nat)))) :
    List (List (List (List Nat))) :=
  let N := frames.length
  if N < self.max_frames_number then
    let f0 := frames.getD 0 []
    frames ++ List.replicate (self.max_frames_number - N)
      (zeros3 f0.length (f0.getD 0 []).length ((f0.getD 0 []).getD 0 []).length)
  else frames

/-- An `np.ndarray` frame of shape `[a, b, c]`, as a nested list: `a`
channels, each of `b` rows of `c` cells (an ndarray is uniformly shaped,
which the list embedding has to state explicitly). -/
def shape3Is (a b c : Nat) (fr : List (List (List Nat))) : Prop :=
  fr.length = a ∧ ∀ ch ∈ fr, ch.length = b ∧ ∀ row ∈ ch, row.length = c

instance (a b c : Nat) (fr : List (List (List Nat))) :
    Decidable (shape3Is a b c fr) := by
  unfold shape3Is; infer_instance

/-- A list of half-open index segments that starts at `left`, is
contiguous and non-overlapping, ends exactly at `t.length`, and in which
every segment is non-empty and spans at most `duration` time units past
its anchor `t[s.1]`. -/
def SegChain (t : List Int) (duration : Int) : Nat → List (Nat × Nat) → Prop
  | left, [] => left = t.length
  | left, s :: rest =>
      s.1 = left ∧ left < s.2 ∧ s.2 ≤ t.length ∧
      (∀ k, s.1 ≤ k → k < s.2 → t.getD k 0 - t.getD s.1 0 ≤ duration) ∧
      SegChain t duration s.2 rest

/-! ### Basic list helper lemmas -/

lemma getD_map_range {α : Type _} (f : Nat → α) (d : α) {n i : Nat}
    (h : i < n) : ((List.range n).map f).getD i d = f i := by
  simp [List.getD_eq_getElem?_getD, List.getElem?_map, List.getElem?_range, h]

lemma getD_mem {α : Type _} (l : List α) (d : α) {i : Nat}
    (h : i < l.length) : l.getD i d ∈ l := by
  rw [List.getD_eq_getElem l d h]
  exact List.getElem_mem h

/-! ### `setLast` lemmas -/

lemma setLast_length (segs : List (Nat × Nat)) (N : Nat) :
    (setLast segs N).length = segs.length := by
  simp [setLast]

lemma setLast_getD_of_lt (segs : List (Nat × Nat)) (N : Nat) {i : Nat}
    (h : i + 1 < segs.length) :
    (setLast segs N).getD i (0, 0) = segs.getD i (0, 0) := by
  rw [setLast, getD_map_range _ _ (by omega)]
  simp [Nat.ne_of_lt h]

lemma setLast_getD_last (segs : List (Nat × Nat)) (N : Nat) {i : Nat}
    (h : i + 1 = segs.length) :
    (setLast segs N).getD i (0, 0) = ((segs.getD i (0, 0)).1, N) := by
  rw [setLast, getD_map_range _ _ (by omega)]
  simp [h]

/-! ### Claim C3: `split_by = "number"` segment layout -/

/-- Claim C3: for a timestamp array of length `N` and `frames_num = k ≥ 1`,
the `split_by = "number"` planner returns `k` segments, segment `i` being
`[i*(N/k), (i+1)*(N/k))` for `i < k-1` and the last segment being
`[(k-1)*(N/k), N)`; hence the first `k-1` segments hold exactly `N/k`
events each and the last holds `N - (k-1)*(N/k)`. -/
theorem number_split_exact (events_t : List Int) (k : Nat) (hk : 1 ≤ k) :
    ∃ segs,
      cal_fixed_frames_number_segment_index events_t "number" k = some segs ∧
      segs.length = k ∧
      (∀ i, i + 1 < k →
        segs.getD i (0, 0) =
          (i * (events_t.length / k), (i + 1) * (events_t.length / k))) ∧
      segs.getD (k - 1) (0, 0) =
        ((k - 1) * (events_t.length / k), events_t.length) ∧
      (∀ i, i + 1 < k →
        (segs.getD i (0, 0)).2 - (segs.getD i (0, 0)).1 =
          events_t.length / k) ∧
      (segs.getD (k - 1) (0, 0)).2 - (segs.getD (k - 1) (0, 0)).1 =
        events_t.length - (k - 1) * (events_t.length / k) := by
  set N := events_t.length with hN
  set di := N / k with hdi
  have hk0 : ¬ (k = 0) := by omega
  refine ⟨setLast ((List.range k).map (fun i => (i * di, i * di + di))) N,
    ?_, ?_, ?_, ?_, ?_, ?_⟩
  · simp only [cal_fixed_frames_number_segment_index, hk0, if_false,
      if_pos rfl]
    rfl
  · simp [setLast_length]
  · intro i hi
    rw [setLast_getD_of_lt _ _ (by simpa using (by omega : i + 1 < k)),
      getD_map_range _ _ (by omega)]
    simp [Nat.succ_mul]
  · rw [setLast_getD_last _ _ (by simpa using (by omega : k - 1 + 1 = k)),
      getD_map_range _ _ (by omega)]
  · intro i hi
    rw [setLast_getD_of_lt _ _ (by simpa using (by omega : i + 1 < k)),
      getD_map_range _ _ (by omega)]
    simp
  · rw [setLast_getD_last _ _ (by simpa using (by omega : k - 1 + 1 = k)),
      getD_map_range _ _ (by omega)]

/-- Witness for C3 at `N = 10`, `k = 3`: segments `(0,3) (3,6) (6,10)`. -/
theorem number_split_exact_witness :
    1 ≤ 3 ∧
    ∃ segs,
      cal_fixed_frames_number_segment_index
        [0, 1, 2, 3, 4, 5, 6, 7, 8, 9] "number" 3 = some segs ∧
      segs.length = 3 ∧
      (∀ i, i + 1 < 3 →
        segs.getD i (0, 0) = (i * (10 / 3), (i + 1) * (10 / 3))) ∧
      segs.getD 2 (0, 0) = (2 * (10 / 3), 10) ∧
      (∀ i, i + 1 < 3 →
        (segs.getD i (0, 0)).2 - (segs.getD i (0, 0)).1 = 10 / 3) ∧
      (segs.getD 2 (0, 0)).2 - (segs.getD 2 (0, 0)).1 = 10 - 2 * (10 / 3) :=
  ⟨by omega, number_split_exact [0, 1, 2, 3, 4, 5, 6, 7, 8, 9] 3 (by omega)⟩

/-! ### Claim C8: `PadFrames.__call__` -/

lemma shape3Is_zeros3 (a b c : Nat) : shape3Is a b c (zeros3 a b c) := by
  refine ⟨by simp [zeros3], ?_⟩
  intro ch hch
  rw [List.eq_of_mem_replicate hch]
  refine ⟨by simp, ?_⟩
  intro row hrow
  rw [List.eq_of_mem_replicate hrow]
  simp

lemma zeros3_all_zero (a b c : Nat) :
    ∀ ch ∈ zeros3 a b c, ∀ row ∈ ch, ∀ v ∈ row, v = 0 := by
  intro ch hch row hrow v hv
  rw [List.eq_of_mem_replicate hch] at hrow
  rw [List.eq_of_mem_replicate hrow] at hv
  exact List.eq_of_mem_replicate hv

/-- Claim C8: padding a frame sequence of length `N` to target length `L`
returns the input unchanged when `N ≥ L`; when `N < L` it appends exactly
`L - N` all-zero frames of the input's spatial shape, giving length
exactly `L` with the first `N` frames untouched; it never truncates. -/
theorem padframes_spec (L a b c : Nat)
    (frames : List (List (List (List Nat))))
    (ha : 0 < a) (hb : 0 < b) (hne : frames ≠ [])
    (hsh : ∀ fr ∈ frames, shape3Is a b c fr) :
    (L ≤ frames.length → PadFrames.call ⟨L⟩ frames = frames) ∧
    (frames.length < L →
      PadFrames.call ⟨L⟩ frames =
        frames ++ List.replicate (L - frames.length) (zeros3 a b c) ∧
      (PadFrames.call ⟨L⟩ frames).length = L ∧
      (PadFrames.call ⟨L⟩ frames).take frames.length = frames ∧
      ∀ fr ∈ (PadFrames.call ⟨L⟩ frames).drop frames.length,
        shape3Is a b c fr ∧ ∀ ch ∈ fr, ∀ row ∈ ch, ∀ v ∈ row, v = 0) ∧
    frames.length ≤ (PadFrames.call ⟨L⟩ frames).length := by
  have hlen0 : 0 < frames.length := List.length_pos.mpr hne
  have hf0 : frames.getD 0 [] ∈ frames := getD_mem _ _ hlen0
  obtain ⟨h0len, h0rows⟩ := hsh _ hf0
  have hch0 : (frames.getD 0 []).getD 0 [] ∈ frames.getD 0 [] :=
    getD_mem _ _ (by omega)
  obtain ⟨h1len, h1rows⟩ := h0rows _ hch0
  have hrow0 : ((frames.getD 0 []).getD 0 []).getD 0 [] ∈
      (frames.getD 0 []).getD 0 [] := getD_mem _ _ (by omega)
  have h2len := h1rows _ hrow0
  have hcall : frames.length < L →
      PadFrames.call ⟨L⟩ frames =
        frames ++ List.replicate (L - frames.length) (zeros3 a b c) := by
    intro hNL
    simp only [PadFrames.call, if_pos hNL, h0len, h1len, h2len]
  refine ⟨?_, ?_, ?_⟩
  · intro hLN
    simp only [PadFrames.call]
    rw [if_neg (by omega : ¬ frames.length < L)]
  · intro hNL
    rw [hcall hNL]
    refine ⟨rfl, by simp; omega, List.take_left frames _, ?_⟩
    rw [List.drop_left]
    intro fr hfr
    rw [List.eq_of_mem_replicate hfr]
    exact ⟨shape3Is_zeros3 a b c, zeros3_all_zero a b c⟩
  · by_cases hNL : frames.length < L
    · rw [hcall hNL]; simp
    · simp only [PadFrames.call]
      rw [if_neg hNL]

/-- Witness for C8: one `[1,2,2]`-shaped frame padded to length 3. -/
theorem padframes_spec_witness :
    (0 < 1 ∧ 0 < 2 ∧ [[[[1, 2], [3, 4]]]] ≠ [] ∧
      ∀ fr ∈ [[[[1, 2], [3, 4]]]], shape3Is 1 2 2 fr) ∧
    ((3 ≤ 1 → PadFrames.call ⟨3⟩ [[[[1, 2], [3, 4]]]] = [[[[1, 2], [3, 4]]]]) ∧
     (1 < 3 →
       PadFrames.call ⟨3⟩ [[[[1, 2], [3, 4]]]] =
         [[[[1, 2], [3, 4]]]] ++ List.replicate (3 - 1) (zeros3 1 2 2) ∧
       (PadFrames.call ⟨3⟩ [[[[1, 2], [3, 4]]]]).length = 3 ∧
       (PadFrames.call ⟨3⟩ [[[[1, 2], [3, 4]]]]).take 1 = [[[[1, 2], [3, 4]]]] ∧
       ∀ fr ∈ (PadFrames.call ⟨3⟩ [[[[1, 2], [3, 4]]]]).drop 1,
         shape3Is 1 2 2 fr ∧ ∀ ch ∈ fr, ∀ row ∈ ch, ∀ v ∈ row, v = 0) ∧
     1 ≤ (PadFrames.call ⟨3⟩ [[[[1, 2], [3, 4]]]]).length) :=
  ⟨⟨by decide, by decide, by decide, by decide⟩,
    by
      have h := padframes_spec 3 1 2 2 [[[[1, 2], [3, 4]]]]
        (by decide) (by decide) (by decide) (by decide)
      simpa using h⟩

/-! ### Claim C7: the ATIS fixed-width 5-byte decoder -/

lemma getD_drop {α : Type _} (l : List α) (d : α) (k m : Nat) :
    (l.drop k).getD m d = l.getD (k + m) d := by
  simp [List.getD_eq_getElem?_getD, List.getElem?_drop]

lemma getD_map_of_lt {α β : Type _} (f : α → β) (l : List α) (d : β)
    (d' : α) {j : Nat} (h : j < l.length) :
    (l.map f).getD j d = f (l.getD j d') := by
  rw [List.getD_eq_getElem _ _ (by simpa using h), List.getElem_map,
    List.getD_eq_getElem _ _ h]

lemma everyNth5_nil : everyNth5 [] = [] := rfl

lemma everyNth5_one (a : Nat) : everyNth5 [a] = [a] := rfl

lemma everyNth5_two (a b : Nat) : everyNth5 [a, b] = [a] := rfl

lemma everyNth5_three (a b c : Nat) : everyNth5 [a, b, c] = [a] := rfl

lemma everyNth5_four (a b c d : Nat) : everyNth5 [a, b, c, d] = [a] := rfl

lemma everyNth5_cons5 (a b c d e : Nat) (rest : List Nat) :
    everyNth5 (a :: b :: c :: d :: e :: rest) = a :: everyNth5 rest := rfl

lemma everyNth5_getD : ∀ (j : Nat) (l : List Nat),
    (everyNth5 l).getD j 0 = l.getD (5 * j) 0 := by
  intro j
  induction j with
  | zero =>
    intro l
    match l with
    | [] => rfl
    | [a] => rfl
    | [a, b] => rfl
    | [a, b, c] => rfl
    | [a, b, c, d] => rfl
    | a :: b :: c :: d :: e :: rest => rfl
  | succ j ih =>
    intro l
    match l with
    | [] => rfl
    | [a] =>
      rw [everyNth5_one,
        List.getD_eq_default _ _ (by simp only [List.length_singleton]; omega),
        List.getD_eq_default _ _ (by simp only [List.length_singleton]; omega)]
    | [a, b] =>
      rw [everyNth5_two,
        List.getD_eq_default _ _ (by simp only [List.length_singleton]; omega),
        List.getD_eq_default _ _
          (by simp only [List.length_cons, List.length_nil]; omega)]
    | [a, b, c] =>
      rw [everyNth5_three,
        List.getD_eq_default _ _ (by simp only [List.length_singleton]; omega),
        List.getD_eq_default _ _
          (by simp only [List.length_cons, List.length_nil]; omega)]
    | [a, b, c, d] =>
      rw [everyNth5_four,
        List.getD_eq_default _ _ (by simp only [List.length_singleton]; omega),
        List.getD_eq_default _ _
          (by simp only [List.length_cons, List.length_nil]; omega)]
    | a :: b :: c :: d :: e :: rest =>
      rw [everyNth5_cons5, List.getD_cons_succ, ih rest,
        (by ring : 5 * (j + 1) = 5 * j + 5)]
      rfl

lemma everyNth5_length_aux : ∀ (fuel : Nat) (l : List Nat),
    l.length ≤ fuel → (everyNth5 l).length = (l.length + 4) / 5 := by
  intro fuel
  induction fuel with
  | zero =>
    intro l hl
    have : l = [] := List.eq_nil_of_length_eq_zero (by omega)
    subst this; rfl
  | succ fuel ih =>
    intro l hl
    match l with
    | [] => rfl
    | [a] =>
      rw [everyNth5_one]
      simp only [List.length_singleton]
    | [a, b] =>
      rw [everyNth5_two]
      simp only [List.length_singleton, List.length_cons, List.length_nil]
    | [a, b, c] =>
      rw [everyNth5_three]
      simp only [List.length_singleton, List.length_cons, List.length_nil]
    | [a, b, c, d] =>
      rw [everyNth5_four]
      simp only [List.length_singleton, List.length_cons, List.length_nil]
    | a :: b :: c :: d :: e :: rest =>
      rw [everyNth5_cons5]
      have hrest : rest.length ≤ fuel := by
        simp only [List.length_cons] at hl; omega
      simp only [List.length_cons, ih rest hrest]
      omega

lemma everyNth5_length (l : List Nat) :
    (everyNth5 l).length = (l.length + 4) / 5 :=
  everyNth5_length_aux l.length l le_rfl

lemma combineT_length : ∀ (l2 l3 l4 : List Nat),
    (combineT l2 l3 l4).length = min (min l2.length l3.length) l4.length := by
  intro l2
  induction l2 with
  | nil => intro l3 l4; simp [combineT]
  | cons b2 r2 ih =>
    intro l3 l4
    match l3, l4 with
    | [], _ => simp [combineT]
    | _ :: _, [] => simp [combineT]
    | b3 :: r3, b4 :: r4 =>
      show (_ :: combineT r2 r3 r4).length = _
      simp only [List.length_cons, ih r3 r4]
      omega

lemma combineT_getD : ∀ (j : Nat) (l2 l3 l4 : List Nat),
    j < l2.length → j < l3.length → j < l4.length →
    (combineT l2 l3 l4).getD j 0 =
      ((l2.getD j 0 &&& 127) <<< 16 ||| (l3.getD j 0) <<< 8 |||
        l4.getD j 0) % 2 ^ 32 := by
  intro j
  induction j with
  | zero =>
    intro l2 l3 l4 h2 h3 h4
    match l2, l3, l4 with
    | b2 :: r2, b3 :: r3, b4 :: r4 => rfl
  | succ j ih =>
    intro l2 l3 l4 h2 h3 h4
    match l2, l3, l4 with
    | b2 :: r2, b3 :: r3, b4 :: r4 =>
      show (_ :: combineT r2 r3 r4).getD (j + 1) 0 = _
      rw [List.getD_cons_succ]
      exact ih r2 r3 r4 (by simpa using h2) (by simpa using h3)
        (by simpa using h4)

lemma and128_shiftRight7 (b : Nat) : (b &&& 128) >>> 7 = (b >>> 7) &&& 1 := by
  rw [Nat.shiftRight_eq_div_pow, Nat.shiftRight_eq_div_pow,
    Nat.and_one_is_mod, (by norm_num : (128 : Nat) = 2 ^ 7), Nat.and_two_pow,
    Nat.toNat_testBit]
  rw [Nat.mul_div_cancel _ (by norm_num : (0 : Nat) < 2 ^ 7)]

/-- Claim C7: every 5-byte record `(b0, b1, b2, b3, b4)` of the byte
stream decodes to `x = b0`, `y = b1`, `p = (b2 >>> 7) &&& 1` and
`t = ((b2 &&& 0x7F) <<< 16) ||| (b3 <<< 8) ||| b4`; in particular the
record `[10, 20, 0b10000101, 0x00, 0x7F]` decodes to
`x = 10, y = 20, p = 1, t = 327807`. -/
theorem atis_record_decode (raw : List Nat) (n : Nat)
    (hlen : raw.length = 5 * n) (hb : ∀ v ∈ raw, v < 256) :
    ∃ ev, load_ATIS_bin raw = some ev ∧
      (∀ j, j < n →
        ev.x.getD j 0 = raw.getD (5 * j) 0 ∧
        ev.y.getD j 0 = raw.getD (5 * j + 1) 0 ∧
        ev.p.getD j 0 = (raw.getD (5 * j + 2) 0 >>> 7) &&& 1 ∧
        ev.t.getD j 0 = ((raw.getD (5 * j + 2) 0 &&& 127) <<< 16 |||
          raw.getD (5 * j + 3) 0 <<< 8 ||| raw.getD (5 * j + 4) 0 : Nat)) ∧
      load_ATIS_bin [10, 20, 133, 0, 127] =
        some ⟨[(327807 : Int)], [10], [20], [1]⟩ := by
  have hguard : ¬(raw.length % 5 = 3 ∨ raw.length % 5 = 4) := by
    rw [hlen]; omega
  refine ⟨⟨(combineT (everyNth5 (raw.drop 2)) (everyNth5 (raw.drop 3))
      (everyNth5 (raw.drop 4))).map Int.ofNat,
    everyNth5 raw, everyNth5 (raw.drop 1),
    (everyNth5 (raw.drop 2)).map (fun b => (b &&& 128) >>> 7)⟩,
    ?_, ?_, by decide⟩
  · simp only [load_ATIS_bin]
    rw [if_neg hguard]
  · intro j hj
    have h2len : (everyNth5 (raw.drop 2)).length = n := by
      rw [everyNth5_length, List.length_drop, hlen]; omega
    have h3len : (everyNth5 (raw.drop 3)).length = n := by
      rw [everyNth5_length, List.length_drop, hlen]; omega
    have h4len : (everyNth5 (raw.drop 4)).length = n := by
      rw [everyNth5_length, List.length_drop, hlen]; omega
    refine ⟨everyNth5_getD j raw, ?_, ?_, ?_⟩
    · rw [everyNth5_getD, getD_drop, Nat.add_comm 1 (5 * j)]
    · rw [getD_map_of_lt _ _ _ 0 (by omega : j < (everyNth5 (raw.drop 2)).length),
        everyNth5_getD, getD_drop, and128_shiftRight7, Nat.add_comm 2 (5 * j)]
    · have hcomb : j < (combineT (everyNth5 (raw.drop 2))
          (everyNth5 (raw.drop 3)) (everyNth5 (raw.drop 4))).length := by
        rw [combineT_length, h2len, h3len, h4len]; omega
      rw [getD_map_of_lt Int.ofNat _ _ 0 hcomb,
        combineT_getD j _ _ _ (by omega) (by omega) (by omega),
        everyNth5_getD, everyNth5_getD, everyNth5_getD,
        getD_drop, getD_drop, getD_drop,
        Nat.add_comm 2 (5 * j), Nat.add_comm 3 (5 * j), Nat.add_comm 4 (5 * j)]
      have hb3 : raw.getD (5 * j + 3) 0 < 256 :=
        hb _ (getD_mem _ _ (by omega))
      have hb4 : raw.getD (5 * j + 4) 0 < 256 :=
        hb _ (getD_mem _ _ (by omega))
      have h127 : raw.getD (5 * j + 2) 0 &&& 127 ≤ 127 := Nat.and_le_right
      have hlt : (raw.getD (5 * j + 2) 0 &&& 127) <<< 16 |||
          raw.getD (5 * j + 3) 0 <<< 8 ||| raw.getD (5 * j + 4) 0 < 2 ^ 32 := by
        have h1 : (raw.getD (5 * j + 2) 0 &&& 127) <<< 16 < 2 ^ 32 := by
          rw [Nat.shiftLeft_eq]
          calc (raw.getD (5 * j + 2) 0 &&& 127) * 2 ^ 16
              ≤ 127 * 2 ^ 16 := Nat.mul_le_mul_right _ h127
            _ < 2 ^ 32 := by norm_num
        have h2 : raw.getD (5 * j + 3) 0 <<< 8 < 2 ^ 32 := by
          rw [Nat.shiftLeft_eq]
          calc raw.getD (5 * j + 3) 0 * 2 ^ 8
              ≤ 255 * 2 ^ 8 := Nat.mul_le_mul_right _ (by omega)
            _ < 2 ^ 32 := by norm_num
        have h3 : raw.getD (5 * j + 4) 0 < 2 ^ 32 := by omega
        exact Nat.or_lt_two_pow (Nat.or_lt_two_pow h1 h2) h3
      rw [Nat.mod_eq_of_lt hlt]
      rfl

/-- Witness for C7: a two-record stream, every byte below 256. -/
theorem atis_record_decode_witness :
    ([10, 20, 133, 0, 127, 1, 2, 3, 4, 5] : List Nat).length = 5 * 2 ∧
    (∃ ev, load_ATIS_bin [10, 20, 133, 0, 127, 1, 2, 3, 4, 5] = some ev ∧
      (∀ j, j < 2 →
        ev.x.getD j 0 = List.getD [10, 20, 133, 0, 127, 1, 2, 3, 4, 5] (5 * j) 0 ∧
        ev.y.getD j 0 = List.getD [10, 20, 133, 0, 127, 1, 2, 3, 4, 5] (5 * j + 1) 0 ∧
        ev.p.getD j 0 =
          (List.getD [10, 20, 133, 0, 127, 1, 2, 3, 4, 5] (5 * j + 2) 0 >>> 7) &&& 1 ∧
        ev.t.getD j 0 =
          ((List.getD [10, 20, 133, 0, 127, 1, 2, 3, 4, 5] (5 * j + 2) 0 &&& 127) <<< 16 |||
            List.getD [10, 20, 133, 0, 127, 1, 2, 3, 4, 5] (5 * j + 3) 0 <<< 8 |||
            List.getD [10, 20, 133, 0, 127, 1, 2, 3, 4, 5] (5 * j + 4) 0 : Nat)) ∧
      load_ATIS_bin [10, 20, 133, 0, 127] =
        some ⟨[(327807 : Int)], [10], [20], [1]⟩) :=
  ⟨by decide,
    atis_record_decode [10, 20, 133, 0, 127, 1, 2, 3, 4, 5] 2
      (by decide) (by decide)⟩

/-! ### Counting and slicing helper lemmas for the frame integrator -/

lemma list_sum_map_range (f : Nat → Nat) (n : Nat) :
    ((List.range n).map f).sum = ∑ i in Finset.range n, f i := by
  induction n with
  | zero => rfl
  | succ n ih => rw [List.range_succ, List.map_append, List.sum_append,
      Finset.sum_range_succ, ih]; simp

lemma countP_range (k : Nat) (r : Nat → Bool) :
    (List.range k).countP r = ((Finset.range k).filter (fun i => r i)).card := by
  induction k with
  | zero => simp
  | succ k ih =>
    rw [List.range_succ, List.countP_append, ih, Finset.range_succ,
      Finset.filter_insert]
    by_cases h : r k
    · rw [if_pos h, Finset.card_insert_of_not_mem (by simp)]
      simp [List.countP_cons, h]
    · rw [if_neg h]
      simp [List.countP_cons, h]

lemma slice_eq_map_range {α : Type _} (d : α) (l : List α) (a k : Nat)
    (h : a + k ≤ l.length) :
    (l.take (a + k)).drop a = (List.range k).map (fun i => l.getD (a + i) d) := by
  apply List.ext_getElem
  · simp; omega
  · intro i h1 h2
    have hik : i < k := by simp at h2; omega
    have hai : a + i < l.length := by omega
    rw [List.getElem_drop, List.getElem_take, List.getElem_map,
      List.getElem_range, List.getD_eq_getElem _ _ hai]

lemma card_filter_range_shift (k a : Nat) (Q : Nat → Bool) :
    ((Finset.range k).filter (fun i => Q (a + i))).card =
      ((Finset.Ico a (a + k)).filter (fun i => Q i)).card := by
  apply Finset.card_bij (fun i _ => a + i)
  · intro i hi
    simp only [Finset.mem_filter, Finset.mem_range] at hi
    simp only [Finset.mem_filter, Finset.mem_Ico]
    exact ⟨⟨by omega, by omega⟩, hi.2⟩
  · intro i hi j hj hij
    omega
  · intro b hb
    simp only [Finset.mem_filter, Finset.mem_Ico] at hb
    refine ⟨b - a, ?_, by omega⟩
    simp only [Finset.mem_filter, Finset.mem_range]
    rw [(by omega : a + (b - a) = b)]
    exact ⟨by omega, hb.2⟩

/-- `countP` over the slice `[a, a+k)` of a list counts exactly the indices
in `Finset.Ico a (a+k)` whose element satisfies the predicate. -/
lemma countP_slice {α : Type _} (d : α) (l : List α) (q : α → Bool)
    (a k : Nat) (h : a + k ≤ l.length) :
    ((l.take (a + k)).drop a).countP q =
      ((Finset.Ico a (a + k)).filter (fun i => q (l.getD i d))).card := by
  rw [slice_eq_map_range d l a k h, List.countP_map, ← card_filter_range_shift,
    ← countP_range]
  rfl

lemma mem_le_foldr_max (l : List Nat) (a : Nat) (ha : a ∈ l) :
    a ≤ l.foldr max 0 := by
  induction l with
  | nil => cases ha
  | cons b t ih =>
    rcases List.mem_cons.mp ha with h | h
    · subst h; exact le_max_left _ _
    · exact le_trans (ih h) (le_max_right _ _)

lemma foldr_max_lt (l : List Nat) {B : Nat} (hB : 0 < B)
    (h : ∀ a ∈ l, a < B) : l.foldr max 0 < B := by
  induction l with
  | nil => simpa using hB
  | cons b t ih =>
    have hb := h b (List.mem_cons_self b t)
    have ht := ih (fun a ha => h a (List.mem_cons_of_mem b ha))
    simp only [List.foldr_cons]
    omega

lemma bincount_getD (l : List Nat) (v : Nat) :
    (bincount l).getD v 0 = l.count v := by
  match l with
  | [] => simp [bincount]
  | a :: t =>
    show ((List.range ((a :: t).foldr max 0 + 1)).map
      (fun w => (a :: t).count w)).getD v 0 = _
    by_cases hv : v < (a :: t).foldr max 0 + 1
    · rw [getD_map_range _ _ hv]
    · rw [List.getD_eq_default _ _
        (by simp only [List.length_map, List.length_range]; omega)]
      symm
      rw [List.count_eq_zero]
      intro hmem
      exact hv (by have := mem_le_foldr_max _ _ hmem; omega)

lemma bincount_length_le (l : List Nat) {B : Nat} (h : ∀ a ∈ l, a < B) :
    (bincount l).length ≤ B := by
  match l with
  | [] => simp [bincount]
  | a :: t =>
    show ((List.range ((a :: t).foldr max 0 + 1)).map
      (fun w => (a :: t).count w)).length ≤ B
    have hB : 0 < B := by
      have := h a (List.mem_cons_self a t); omega
    have := foldr_max_lt (a :: t) hB h
    simp only [List.length_map, List.length_range]
    omega

lemma sum_count_eq_length (l : List Nat) (B : Nat) (h : ∀ a ∈ l, a < B) :
    (∑ v in Finset.range B, l.count v) = l.length := by
  induction l with
  | nil => simp
  | cons a t ih =>
    have hat : ∀ b ∈ t, b < B := fun b hb => h b (List.mem_cons_of_mem a hb)
    have haB : a ∈ Finset.range B :=
      Finset.mem_range.mpr (h a (List.mem_cons_self a t))
    simp only [List.count_cons]
    rw [Finset.sum_add_distrib, ih hat]
    simp only [List.length_cons]
    congr 1
    simp only [beq_iff_eq]
    rw [Finset.sum_ite_eq (Finset.range B) a (fun _ => 1), if_pos haB]

lemma bincount_sum (l : List Nat) : (bincount l).sum = l.length := by
  match l with
  | [] => rfl
  | a :: t =>
    show ((List.range ((a :: t).foldr max 0 + 1)).map
      (fun w => (a :: t).count w)).sum = _
    rw [list_sum_map_range]
    exact sum_count_eq_length _ _
      (fun b hb => by have := mem_le_foldr_max _ _ hb; omega)

lemma sum_getD (l : List Nat) :
    ∑ i in Finset.range l.length, l.getD i 0 = l.sum := by
  induction l with
  | nil => simp
  | cons a t ih =>
    rw [List.length_cons, Finset.sum_range_succ']
    simp only [List.getD_cons_succ, List.getD_cons_zero, List.sum_cons]
    rw [ih]
    omega

lemma channel_sum (bc : List Nat) (HW : Nat) (h : bc.length ≤ HW) :
    ((List.range HW).map (fun i => bc.getD i 0)).sum = bc.sum := by
  rw [list_sum_map_range]
  have hz : ∀ x ∈ Finset.range HW, x ∉ Finset.range bc.length →
      bc.getD x 0 = 0 := by
    intro x _ hx
    exact List.getD_eq_default _ _ (by simpa using hx)
  rw [← Finset.sum_subset (Finset.range_subset.mpr h) hz, sum_getD]

lemma count_map_eq_countP {α : Type _} (f : α → Nat) (l : List α) (t : Nat) :
    (l.map f).count t = l.countP (fun a => decide (f a = t)) := by
  induction l with
  | nil => rfl
  | cons a s ih =>
    by_cases h : f a = t
    · simp [List.count_cons, List.countP_cons, ih, h]
    · have h' : t ≠ f a := fun hh => h hh.symm
      simp [List.count_cons, List.countP_cons, ih, h, h']

lemma zip_getD {α β : Type _} (l1 : List α) (l2 : List β) (d1 : α) (d2 : β)
    (i : Nat) (h1 : i < l1.length) (h2 : i < l2.length) :
    (l1.zip l2).getD i (d1, d2) = (l1.getD i d1, l2.getD i d2) := by
  rw [List.getD_eq_getElem _ _ (by simp [List.length_zip]; omega),
    List.getElem_zip, List.getD_eq_getElem _ _ h1, List.getD_eq_getElem _ _ h2]

lemma zip_take_take {α β : Type _} : ∀ (l1 : List α) (l2 : List β) (n : Nat),
    (l1.take n).zip (l2.take n) = (l1.zip l2).take n := by
  intro l1
  induction l1 with
  | nil => intro l2 n; simp
  | cons a s ih =>
    intro l2 n
    cases l2 with
    | nil => simp
    | cons b u =>
      cases n with
      | zero => simp
      | succ n =>
        simp only [List.take_succ_cons, List.zip_cons_cons]
        rw [ih]

lemma zip_drop_drop {α β : Type _} : ∀ (l1 : List α) (l2 : List β) (n : Nat),
    (l1.drop n).zip (l2.drop n) = (l1.zip l2).drop n := by
  intro l1
  induction l1 with
  | nil => intro l2 n; simp
  | cons a s ih =>
    intro l2 n
    cases l2 with
    | nil => simp
    | cons b u =>
      cases n with
      | zero => simp
      | succ n =>
        simp only [List.drop_succ_cons, List.zip_cons_cons]
        rw [ih]

lemma pySlice_nat {α : Type _} (l : List α) (jl jr : Nat)
    (hjl : jl ≤ l.length) (hjr : jr ≤ l.length) :
    pySlice l (jl : Int) (jr : Int) = (l.take jr).drop jl := by
  have h1 : pySliceIdx l.length (jl : Int) = jl := by
    simp only [pySliceIdx, if_neg (by omega : ¬ ((jl : Int) < 0))]
    omega
  have h2 : pySliceIdx l.length (jr : Int) = jr := by
    simp only [pySliceIdx, if_neg (by omega : ¬ ((jr : Int) < 0))]
    omega
  rw [pySlice, h1, h2]

lemma pySlice_subset {α : Type _} (l : List α) (jl jr : Int) :
    ∀ a ∈ pySlice l jl jr, a ∈ l := by
  intro a ha
  exact List.mem_of_mem_take (List.mem_of_mem_drop ha)

lemma pos_inj {W y x y0 x0 : Nat} (hx : x < W) (hx0 : x0 < W) :
    y * W + x = y0 * W + x0 ↔ y = y0 ∧ x = x0 := by
  constructor
  · intro h
    have hW : 0 < W := by omega
    have hdiv : ∀ z w : Nat, w < W → (z * W + w) / W = z := by
      intro z w hw
      rw [Nat.add_comm, Nat.add_mul_div_right _ _ hW,
        Nat.div_eq_of_lt hw]
      omega
    have hy : y = y0 := by
      have e1 := hdiv y x hx
      have e2 := hdiv y0 x0 hx0
      rw [h] at e1
      omega
    subst hy
    exact ⟨rfl, by omega⟩
  · rintro ⟨rfl, rfl⟩
    rfl

lemma maskedPositions_lt (ys xs ps : List Nat) (W H c : Nat)
    (hx : ∀ v ∈ xs, v < W) (hy : ∀ v ∈ ys, v < H) :
    ∀ v ∈ maskedPositions ys xs ps W c, v < H * W := by
  intro v hv
  simp only [maskedPositions, List.mem_map, List.mem_filter] at hv
  obtain ⟨⟨⟨ey, ex⟩, ep⟩, ⟨hmem, _⟩, rfl⟩ := hv
  obtain ⟨hyx, _⟩ := List.of_mem_zip hmem
  obtain ⟨hy1, hx1⟩ := List.of_mem_zip hyx
  have hyH : ey < H := hy _ hy1
  have hxW : ex < W := hx _ hx1
  calc ey * W + ex < ey * W + W := by omega
    _ = (ey + 1) * W := by ring
    _ ≤ H * W := Nat.mul_le_mul_right W (by omega)

lemma maskedPositions_count (ys xs ps : List Nat) (W c y0 x0 : Nat)
    (hx : ∀ v ∈ xs, v < W) (hx0 : x0 < W) :
    (maskedPositions ys xs ps W c).count (y0 * W + x0) =
      ((ys.zip xs).zip ps).countP
        (fun e => (if c = 0 then decide (e.2 = 0) else decide (e.2 ≠ 0)) &&
          (decide (e.1.1 = y0) && decide (e.1.2 = x0))) := by
  rw [maskedPositions, count_map_eq_countP, List.countP_filter]
  apply List.countP_congr
  rintro ⟨⟨ey, ex⟩, ep⟩ hmem
  obtain ⟨hyx, _⟩ := List.of_mem_zip hmem
  obtain ⟨_, hx1⟩ := List.of_mem_zip hyx
  have hxW : ex < W := hx _ hx1
  by_cases hc : c = 0
  · simp only [if_pos hc, Bool.and_eq_true, decide_eq_true_eq]
    rw [pos_inj hxW hx0]
    tauto
  · simp only [if_neg hc, Bool.and_eq_true, decide_eq_true_eq]
    rw [pos_inj hxW hx0]
    tauto

lemma maskedPositions_length_sum (ys xs ps : List Nat) (W : Nat) :
    (maskedPositions ys xs ps W 0).length +
      (maskedPositions ys xs ps W 1).length =
      ((ys.zip xs).zip ps).length := by
  simp only [maskedPositions, List.length_map, ← List.countP_eq_length_filter]
  rw [List.length_eq_countP_add_countP (fun e => decide (e.2 = 0))]
  congr 1
  apply List.countP_congr
  intro e _
  simp

/-- With in-range coordinates the bincount guard of
`integrate_events_segment_to_frame` always passes, and the function
returns the two accumulated channels. -/
lemma integrate_eq_channels (ev : EventRecord) (H W : Nat) (j_l j_r : Int)
    (hx : ∀ v ∈ ev.x, v < W) (hy : ∀ v ∈ ev.y, v < H) :
    integrate_events_segment_to_frame ev H W j_l j_r =
      some [(List.range (H * W)).map (fun i =>
              (bincount (maskedPositions (pySlice ev.y j_l j_r)
                (pySlice ev.x j_l j_r) (pySlice ev.p j_l j_r) W 0)).getD i 0),
            (List.range (H * W)).map (fun i =>
              (bincount (maskedPositions (pySlice ev.y j_l j_r)
                (pySlice ev.x j_l j_r) (pySlice ev.p j_l j_r) W 1)).getD i 0)] := by
  have hx' : ∀ v ∈ pySlice ev.x j_l j_r, v < W :=
    fun v hv => hx v (pySlice_subset _ _ _ _ hv)
  have hy' : ∀ v ∈ pySlice ev.y j_l j_r, v < H :=
    fun v hv => hy v (pySlice_subset _ _ _ _ hv)
  have hb0 : (bincount (maskedPositions (pySlice ev.y j_l j_r)
      (pySlice ev.x j_l j_r) (pySlice ev.p j_l j_r) W 0)).length ≤ H * W :=
    bincount_length_le _ (maskedPositions_lt _ _ _ _ _ _ hx' hy')
  have hb1 : (bincount (maskedPositions (pySlice ev.y j_l j_r)
      (pySlice ev.x j_l j_r) (pySlice ev.p j_l j_r) W 1)).length ≤ H * W :=
    bincount_length_le _ (maskedPositions_lt _ _ _ _ _ _ hx' hy')
  simp only [integrate_events_segment_to_frame]
  rw [if_pos ⟨hb0, hb1⟩]

/-! ### Claim C1: frame shape, non-negativity and count conservation -/

/-- Claim C1: for in-range events and `0 ≤ j_l ≤ j_r ≤ N`,
`integrate_events_segment_to_frame` succeeds, the frame has 2 channels of
`H*W` cells (the `[2, H, W]` tensor before the final reshape), every cell
is a non-negative count, the total count is `j_r - j_l`, and an empty
segment (`j_l = j_r`) yields an all-zero frame rather than an error. -/
theorem frame_counts_and_total (ev : EventRecord) (H W : Nat) (j_l j_r : Nat)
    (hxlen : ev.x.length = ev.p.length) (hylen : ev.y.length = ev.p.length)
    (hx : ∀ v ∈ ev.x, v < W) (hy : ∀ v ∈ ev.y, v < H)
    (hjl : j_l ≤ j_r) (hjr : j_r ≤ ev.p.length) :
    ∃ frame,
      integrate_events_segment_to_frame ev H W (j_l : Int) (j_r : Int) =
        some frame ∧
      frame.length = 2 ∧
      (∀ ch ∈ frame, ch.length = H * W) ∧
      (∀ ch ∈ frame, ∀ v ∈ ch, 0 ≤ v) ∧
      (frame.map List.sum).sum = j_r - j_l ∧
      (j_l = j_r → ∀ ch ∈ frame, ∀ v ∈ ch, v = 0) := by
  rw [integrate_eq_channels ev H W _ _ hx hy]
  have hxs : ∀ v ∈ pySlice ev.x (j_l : Int) (j_r : Int), v < W :=
    fun v hv => hx v (pySlice_subset _ _ _ _ hv)
  have hys : ∀ v ∈ pySlice ev.y (j_l : Int) (j_r : Int), v < H :=
    fun v hv => hy v (pySlice_subset _ _ _ _ hv)
  refine ⟨_, rfl, rfl, ?_, ?_, ?_, ?_⟩
  · intro ch hch
    rcases (by simpa using hch :
      ch = (List.range (H * W)).map (fun i =>
        (bincount (maskedPositions (pySlice ev.y (j_l : Int) (j_r : Int))
          (pySlice ev.x (j_l : Int) (j_r : Int))
          (pySlice ev.p (j_l : Int) (j_r : Int)) W 0)).getD i 0) ∨
      ch = (List.range (H * W)).map (fun i =>
        (bincount (maskedPositions (pySlice ev.y (j_l : Int) (j_r : Int))
          (pySlice ev.x (j_l : Int) (j_r : Int))
          (pySlice ev.p (j_l : Int) (j_r : Int)) W 1)).getD i 0)) with rfl | rfl <;>
      simp
  · intro ch _ v _
    exact Nat.zero_le v
  · simp only [List.map_cons, List.map_nil, List.sum_cons, List.sum_nil]
    rw [channel_sum _ _ (bincount_length_le _
        (maskedPositions_lt _ _ _ _ _ _ hxs hys)),
      channel_sum _ _ (bincount_length_le _
        (maskedPositions_lt _ _ _ _ _ _ hxs hys)),
      bincount_sum, bincount_sum, Nat.add_zero, maskedPositions_length_sum,
      pySlice_nat ev.x j_l j_r (by omega) (by omega),
      pySlice_nat ev.y j_l j_r (by omega) (by omega),
      pySlice_nat ev.p j_l j_r (by omega) hjr]
    simp only [List.length_zip, List.length_drop, List.length_take]
    omega
  · intro hje ch hch v hv
    have hps : pySlice ev.p (j_l : Int) (j_r : Int) = [] := by
      apply List.eq_nil_of_length_eq_zero
      rw [pySlice_nat ev.p j_l j_r (by omega) hjr]
      simp only [List.length_drop, List.length_take]
      omega
    have hmp : ∀ c, maskedPositions (pySlice ev.y (j_l : Int) (j_r : Int))
        (pySlice ev.x (j_l : Int) (j_r : Int))
        (pySlice ev.p (j_l : Int) (j_r : Int)) W c = [] := by
      intro c
      rw [hps]
      simp [maskedPositions]
    rcases (by simpa using hch :
      ch = (List.range (H * W)).map (fun i =>
        (bincount (maskedPositions (pySlice ev.y (j_l : Int) (j_r : Int))
          (pySlice ev.x (j_l : Int) (j_r : Int))
          (pySlice ev.p (j_l : Int) (j_r : Int)) W 0)).getD i 0) ∨
      ch = (List.range (H * W)).map (fun i =>
        (bincount (maskedPositions (pySlice ev.y (j_l : Int) (j_r : Int))
          (pySlice ev.x (j_l : Int) (j_r : Int))
          (pySlice ev.p (j_l : Int) (j_r : Int)) W 1)).getD i 0)) with rfl | rfl
    · obtain ⟨i, _, rfl⟩ := List.mem_map.mp hv
      rw [hmp 0]
      rfl
    · obtain ⟨i, _, rfl⟩ := List.mem_map.mp hv
      rw [hmp 1]
      rfl

/-- Witness for C1: four events on a 3×3 sensor, segment `[1, 3)`. -/
theorem frame_counts_and_total_witness :
    (([1, 2, 1, 1] : List Nat).length = ([0, 1, 0, 1] : List Nat).length ∧
      ([1, 1, 1, 2] : List Nat).length = ([0, 1, 0, 1] : List Nat).length ∧
      (∀ v ∈ ([1, 2, 1, 1] : List Nat), v < 3) ∧
      (∀ v ∈ ([1, 1, 1, 2] : List Nat), v < 3) ∧
      1 ≤ 3 ∧ 3 ≤ ([0, 1, 0, 1] : List Nat).length) ∧
    ∃ frame,
      integrate_events_segment_to_frame
        ⟨[0, 1, 2, 3], [1, 2, 1, 1], [1, 1, 1, 2], [0, 1, 0, 1]⟩ 3 3
        ((1 : Nat) : Int) ((3 : Nat) : Int) = some frame ∧
      frame.length = 2 ∧
      (∀ ch ∈ frame, ch.length = 3 * 3) ∧
      (∀ ch ∈ frame, ∀ v ∈ ch, 0 ≤ v) ∧
      (frame.map List.sum).sum = 3 - 1 ∧
      (1 = 3 → ∀ ch ∈ frame, ∀ v ∈ ch, v = 0) :=
  ⟨⟨by decide, by decide, by decide, by decide, by decide, by decide⟩,
    frame_counts_and_total
      ⟨[0, 1, 2, 3], [1, 2, 1, 1], [1, 1, 1, 2], [0, 1, 0, 1]⟩ 3 3 1 3
      (by decide) (by decide) (by decide) (by decide) (by decide) (by decide)⟩

/-! ### Claim C2: exact per-cell multiplicities -/

/-- Claim C2: each cell `(c, y0, x0)` of the integrated frame (channel `c`,
flattened cell `y0*W + x0`) equals the exact number of indices
`i ∈ [j_l, j_r)` with `(p_i, y_i, x_i) = (c, y0, x0)` — duplicates are
accumulated, not overwritten. -/
theorem duplicate_safe_cell_count (ev : EventRecord) (H W : Nat)
    (j_l j_r : Nat)
    (hxlen : ev.x.length = ev.p.length) (hylen : ev.y.length = ev.p.length)
    (hx : ∀ v ∈ ev.x, v < W) (hy : ∀ v ∈ ev.y, v < H)
    (hp : ∀ v ∈ ev.p, v < 2)
    (hjl : j_l ≤ j_r) (hjr : j_r ≤ ev.p.length)
    (c y0 x0 : Nat) (hc : c < 2) (hy0 : y0 < H) (hx0 : x0 < W) :
    ∃ frame,
      integrate_events_segment_to_frame ev H W (j_l : Int) (j_r : Int) =
        some frame ∧
      (frame.getD c []).getD (y0 * W + x0) 0 =
        ((Finset.Ico j_l j_r).filter (fun i =>
          ev.p.getD i 0 = c ∧ ev.y.getD i 0 = y0 ∧
            ev.x.getD i 0 = x0)).card := by
  rw [integrate_eq_channels ev H W _ _ hx hy]
  refine ⟨_, rfl, ?_⟩
  have hpos : y0 * W + x0 < H * W := by
    calc y0 * W + x0 < y0 * W + W := by omega
      _ = (y0 + 1) * W := by ring
      _ ≤ H * W := Nat.mul_le_mul_right W (by omega)
  have hxs : ∀ v ∈ pySlice ev.x (j_l : Int) (j_r : Int), v < W :=
    fun v hv => hx v (pySlice_subset _ _ _ _ hv)
  have hzlen : j_l + (j_r - j_l) ≤ ((ev.y.zip ev.x).zip ev.p).length := by
    simp only [List.length_zip]
    omega
  have hsplit : j_r = j_l + (j_r - j_l) := by omega
  rcases c with _ | c
  · simp only [List.getD_cons_zero]
    rw [getD_map_range _ _ hpos, bincount_getD,
      maskedPositions_count _ _ _ _ _ _ _ hxs hx0,
      pySlice_nat ev.x j_l j_r (by omega) (by omega),
      pySlice_nat ev.y j_l j_r (by omega) (by omega),
      pySlice_nat ev.p j_l j_r (by omega) hjr,
      zip_drop_drop, zip_take_take, zip_drop_drop, zip_take_take, hsplit,
      countP_slice ((0, 0), (0 : Nat)) _ _ _ _ hzlen]
    apply congrArg Finset.card
    apply Finset.filter_congr
    intro i hi
    have hiN : i < ev.p.length := by
      simp only [Finset.mem_Ico] at hi
      omega
    rw [zip_getD _ _ (0, 0) 0 i (by simp [List.length_zip]; omega) (by omega),
      zip_getD _ _ 0 0 i (by omega) (by omega)]
    simp
  · rcases c with _ | c
    · simp only [List.getD_cons_succ, List.getD_cons_zero]
      rw [getD_map_range _ _ hpos, bincount_getD,
        maskedPositions_count _ _ _ _ _ _ _ hxs hx0,
        pySlice_nat ev.x j_l j_r (by omega) (by omega),
        pySlice_nat ev.y j_l j_r (by omega) (by omega),
        pySlice_nat ev.p j_l j_r (by omega) hjr,
        zip_drop_drop, zip_take_take, zip_drop_drop, zip_take_take, hsplit,
        countP_slice ((0, 0), (0 : Nat)) _ _ _ _ hzlen]
      apply congrArg Finset.card
      apply Finset.filter_congr
      intro i hi
      have hiN : i < ev.p.length := by
        simp only [Finset.mem_Ico] at hi
        omega
      have hpi : ev.p.getD i 0 < 2 := hp _ (getD_mem _ _ hiN)
      rw [zip_getD _ _ (0, 0) 0 i (by simp [List.length_zip]; omega) (by omega),
        zip_getD _ _ 0 0 i (by omega) (by omega)]
      simp only [if_neg (by omega : ¬ (1 : Nat) = 0), Bool.and_eq_true,
        decide_eq_true_eq]
      constructor
      · rintro ⟨hne, hy1, hx1⟩
        exact ⟨by omega, hy1, hx1⟩
      · rintro ⟨hone, hy1, hx1⟩
        exact ⟨by omega, hy1, hx1⟩
    · omega

/-- Witness for C2: duplicated coordinates in the segment are counted with
multiplicity 2 at cell `(0, 1, 1)` of a 3×3 sensor. -/
theorem duplicate_safe_cell_count_witness :
    (([1, 2, 1, 1] : List Nat).length = ([0, 1, 0, 1] : List Nat).length ∧
      ([1, 1, 1, 2] : List Nat).length = ([0, 1, 0, 1] : List Nat).length ∧
      (∀ v ∈ ([1, 2, 1, 1] : List Nat), v < 3) ∧
      (∀ v ∈ ([1, 1, 1, 2] : List Nat), v < 3) ∧
      (∀ v ∈ ([0, 1, 0, 1] : List Nat), v < 2) ∧
      0 ≤ 4 ∧ 4 ≤ ([0, 1, 0, 1] : List Nat).length ∧
      0 < 2 ∧ 1 < 3 ∧ 1 < 3) ∧
    ∃ frame,
      integrate_events_segment_to_frame
        ⟨[0, 1, 2, 3], [1, 2, 1, 1], [1, 1, 1, 2], [0, 1, 0, 1]⟩ 3 3
        ((0 : Nat) : Int) ((4 : Nat) : Int) = some frame ∧
      (frame.getD 0 []).getD (1 * 3 + 1) 0 =
        ((Finset.Ico 0 4).filter (fun i =>
          List.getD [0, 1, 0, 1] i 0 = 0 ∧ List.getD [1, 1, 1, 2] i 0 = 1 ∧
            List.getD [1, 2, 1, 1] i 0 = 1)).card :=
  ⟨⟨by decide, by decide, by decide, by decide, by decide, by decide,
      by decide, by decide, by decide, by decide⟩,
    duplicate_safe_cell_count
      ⟨[0, 1, 2, 3], [1, 2, 1, 1], [1, 1, 1, 2], [0, 1, 0, 1]⟩ 3 3 0 4
      (by decide) (by decide) (by decide) (by decide) (by decide)
      (by decide) (by decide) 0 1 1 (by decide) (by decide) (by decide)⟩

/-! ### Claim C9: the default `j_r = -1` drops the final event -/

lemma pySlice_neg_one {α : Type _} (l : List α) :
    pySlice l 0 (-1) = l.take (l.length - 1) := by
  have h1 : pySliceIdx l.length 0 = 0 := by
    simp [pySliceIdx]
  have h2 : pySliceIdx l.length (-1) = l.length - 1 := by
    simp only [pySliceIdx, if_pos (by omega : (-1 : Int) < 0)]
    omega
  rw [pySlice, h1, h2, List.drop_zero]

/-- Claim C9: with the source defaults `j_l = 0`, `j_r = -1`, Python slice
semantics make `-1` denote index `N-1`, so the default call equals the
explicit call on `[0, N-1)` and its total count is `N - 1`: the final
event is silently excluded and the whole record is not integrated. -/
theorem default_args_exclude_last_event (ev : EventRecord) (H W : Nat)
    (hxlen : ev.x.length = ev.p.length) (hylen : ev.y.length = ev.p.length)
    (hN : 1 ≤ ev.p.length)
    (hx : ∀ v ∈ ev.x, v < W) (hy : ∀ v ∈ ev.y, v < H) :
    integrate_events_segment_to_frame ev H W 0 (-1) =
      integrate_events_segment_to_frame ev H W ((0 : Nat) : Int)
        ((ev.p.length - 1 : Nat) : Int) ∧
    ∃ frame, integrate_events_segment_to_frame ev H W 0 (-1) = some frame ∧
      (frame.map List.sum).sum = ev.p.length - 1 := by
  have heq : integrate_events_segment_to_frame ev H W 0 (-1) =
      integrate_events_segment_to_frame ev H W ((0 : Nat) : Int)
        ((ev.p.length - 1 : Nat) : Int) := by
    simp only [integrate_events_segment_to_frame]
    rw [pySlice_neg_one, pySlice_neg_one, pySlice_neg_one,
      pySlice_nat ev.x 0 (ev.p.length - 1) (by omega) (by omega),
      pySlice_nat ev.y 0 (ev.p.length - 1) (by omega) (by omega),
      pySlice_nat ev.p 0 (ev.p.length - 1) (by omega) (by omega),
      List.drop_zero, List.drop_zero, List.drop_zero, hxlen, hylen]
  refine ⟨heq, ?_⟩
  rw [heq]
  obtain ⟨frame, hfr, _, _, _, hsum, _⟩ :=
    frame_counts_and_total ev H W 0 (ev.p.length - 1) hxlen hylen hx hy
      (by omega) (by omega)
  exact ⟨frame, hfr, by simpa using hsum⟩

/-- Witness for C9 on a 4-event record: the default call integrates only
3 events. -/
theorem default_args_exclude_last_event_witness :
    (([1, 2, 1, 1] : List Nat).length = ([0, 1, 0, 1] : List Nat).length ∧
      ([1, 1, 1, 2] : List Nat).length = ([0, 1, 0, 1] : List Nat).length ∧
      1 ≤ ([0, 1, 0, 1] : List Nat).length ∧
      (∀ v ∈ ([1, 2, 1, 1] : List Nat), v < 3) ∧
      (∀ v ∈ ([1, 1, 1, 2] : List Nat), v < 3)) ∧
    (integrate_events_segment_to_frame
        ⟨[0, 1, 2, 3], [1, 2, 1, 1], [1, 1, 1, 2], [0, 1, 0, 1]⟩ 3 3 0 (-1) =
      integrate_events_segment_to_frame
        ⟨[0, 1, 2, 3], [1, 2, 1, 1], [1, 1, 1, 2], [0, 1, 0, 1]⟩ 3 3
        ((0 : Nat) : Int) ((([0, 1, 0, 1] : List Nat).length - 1 : Nat) : Int) ∧
      ∃ frame,
        integrate_events_segment_to_frame
          ⟨[0, 1, 2, 3], [1, 2, 1, 1], [1, 1, 1, 2], [0, 1, 0, 1]⟩ 3 3
          0 (-1) = some frame ∧
        (frame.map List.sum).sum = ([0, 1, 0, 1] : List Nat).length - 1) :=
  ⟨⟨by decide, by decide, by decide, by decide, by decide⟩,
    default_args_exclude_last_event
      ⟨[0, 1, 2, 3], [1, 2, 1, 1], [1, 1, 1, 2], [0, 1, 0, 1]⟩ 3 3
      (by decide) (by decide) (by decide) (by decide) (by decide)⟩

/-! ### Claim C6: the duration binner does not guard an empty record -/

/-- Counterexample for C6: on the empty Event Record the duration binner
does not return an empty frame sequence — it fails (the model returns
`none` for the out-of-bounds read `t[left]` with `left = 0`, `N = 0`,
which is the `IndexError` raised by the source). -/
theorem duration_empty_record_counterexample :
    integrate_events_by_fixed_duration ⟨[], [], [], []⟩ 100 2 2 = none ∧
    integrate_events_by_fixed_duration ⟨[], [], [], []⟩ 100 2 2 ≠ some [] :=
  ⟨rfl, by decide⟩

/-- Claim C6 as amended: applied to an Event Record with no events, the
duration binner reads `t[0]` out of bounds and raises, for every duration
and frame size; it never returns an empty frame sequence. -/
theorem duration_empty_record_raises (ev : EventRecord) (h : ev.t = [])
    (duration : Int) (H W : Nat) :
    integrate_events_by_fixed_duration ev duration H W = none := by
  simp [integrate_events_by_fixed_duration, fixed_duration_segments, h,
    durationLoop]

/-- Witness for the amended C6. -/
theorem duration_empty_record_raises_witness :
    (⟨[], [], [], []⟩ : EventRecord).t = [] ∧
    integrate_events_by_fixed_duration ⟨[], [], [], []⟩ 7 3 3 = none :=
  ⟨rfl, duration_empty_record_raises ⟨[], [], [], []⟩ rfl 7 3 3⟩

/-! ### Claims C5 and C10: the fixed-duration binner -/

lemma SegChain_nil (t : List Int) (d : Int) (left : Nat) :
    SegChain t d left [] ↔ left = t.length := Iff.rfl

lemma SegChain_cons (t : List Int) (d : Int) (left : Nat) (s : Nat × Nat)
    (rest : List (Nat × Nat)) :
    SegChain t d left (s :: rest) ↔
      s.1 = left ∧ left < s.2 ∧ s.2 ≤ t.length ∧
      (∀ k, s.1 ≤ k → k < s.2 → t.getD k 0 - t.getD s.1 0 ≤ d) ∧
      SegChain t d s.2 rest := Iff.rfl

lemma extendRight_spec (t : List Int) (tl dur : Int) :
    ∀ (fuel right : Nat), t.length - right ≤ fuel → right ≤ t.length →
      right ≤ extendRight t tl dur right ∧
      extendRight t tl dur right ≤ t.length ∧
      (∀ k, right ≤ k → k < extendRight t tl dur right →
        t.getD k 0 - tl ≤ dur) := by
  intro fuel
  induction fuel with
  | zero =>
    intro right h1 h2
    have hr : right = t.length := by omega
    rw [extendRight, dif_neg (by omega : ¬ right < t.length)]
    exact ⟨le_rfl, by omega, fun k hk1 hk2 => by omega⟩
  | succ fuel ih =>
    intro right h1 h2
    rw [extendRight]
    by_cases hlt : right < t.length
    · rw [dif_pos hlt]
      by_cases hle : t.getD right 0 - tl ≤ dur
      · rw [if_pos hle]
        obtain ⟨ha, hb, hc⟩ := ih (right + 1) (by omega) (by omega)
        refine ⟨by omega, hb, ?_⟩
        intro k hk1 hk2
        by_cases hkr : k = right
        · subst hkr; exact hle
        · exact hc k (by omega) hk2
      · rw [if_neg hle]
        exact ⟨le_rfl, by omega, fun k hk1 hk2 => by omega⟩
    · rw [dif_neg hlt]
      exact ⟨le_rfl, by omega, fun k hk1 hk2 => by omega⟩

lemma extendRight_advance (t : List Int) (dur : Int) (left : Nat)
    (hlt : left < t.length) (hdur : 0 ≤ dur) :
    left + 1 ≤ extendRight t (t.getD left 0) dur left := by
  rw [extendRight, dif_pos hlt, if_pos (by omega)]
  exact (extendRight_spec t _ dur (t.length - (left + 1)) (left + 1)
    le_rfl (by omega)).1

lemma durationLoop_spec (t : List Int) (dur : Int) (hdur : 0 ≤ dur) :
    ∀ (fuel left : Nat), left < t.length → t.length - left ≤ fuel →
      ∃ segs, durationLoop t dur left fuel = some segs ∧
        SegChain t dur left segs ∧ segs.length ≤ t.length - left := by
  intro fuel
  induction fuel with
  | zero =>
    intro left h1 h2
    omega
  | succ fuel ih =>
    intro left h1 h2
    rw [durationLoop]
    rw [if_pos h1]
    obtain ⟨ha, hb, hc⟩ := extendRight_spec t (t.getD left 0) dur
      (t.length - left) left le_rfl (by omega)
    have hadv : left + 1 ≤ extendRight t (t.getD left 0) dur left :=
      extendRight_advance t dur left h1 hdur
    by_cases hrN : extendRight t (t.getD left 0) dur left = t.length
    · rw [if_pos hrN]
      refine ⟨[(left, extendRight t (t.getD left 0) dur left)], rfl, ?_, ?_⟩
      · rw [SegChain_cons]
        exact ⟨rfl, by omega, hb, hc, by rw [SegChain_nil]; exact hrN⟩
      · simp only [List.length_cons, List.length_nil]
        omega
    · rw [if_neg hrN]
      obtain ⟨rest, hrest, hchain, hlen⟩ :=
        ih (extendRight t (t.getD left 0) dur left) (by omega) (by omega)
      rw [hrest]
      refine ⟨(left, extendRight t (t.getD left 0) dur left) :: rest,
        rfl, ?_, ?_⟩
      · rw [SegChain_cons]
        exact ⟨rfl, by omega, hb, hc, hchain⟩
      · simp only [List.length_cons]
        omega

lemma SegChain_sum (t : List Int) (dur : Int) :
    ∀ (segs : List (Nat × Nat)) (left : Nat), SegChain t dur left segs →
      (segs.map (fun s => s.2 - s.1)).sum = t.length - left := by
  intro segs
  induction segs with
  | nil =>
    intro left h
    rw [SegChain_nil] at h
    simp [h]
  | cons s rest ih =>
    intro left h
    rw [SegChain_cons] at h
    obtain ⟨h1, h2, h3, _, h5⟩ := h
    simp only [List.map_cons, List.sum_cons]
    rw [ih s.2 h5]
    omega

lemma SegChain_seg_bounds (t : List Int) (dur : Int) :
    ∀ (segs : List (Nat × Nat)) (left : Nat), SegChain t dur left segs →
      ∀ s ∈ segs, left ≤ s.1 ∧ s.1 < s.2 ∧ s.2 ≤ t.length := by
  intro segs
  induction segs with
  | nil =>
    intro left _ s hs
    cases hs
  | cons s0 rest ih =>
    intro left h s hs
    rw [SegChain_cons] at h
    obtain ⟨h1, h2, h3, _, h5⟩ := h
    rcases List.mem_cons.mp hs with rfl | hmem
    · exact ⟨by omega, by omega, h3⟩
    · have := ih s0.2 h5 s hmem
      exact ⟨by omega, this.2.1, this.2.2⟩

lemma SegChain_mem_unique (t : List Int) (dur : Int) :
    ∀ (segs : List (Nat × Nat)) (left : Nat), SegChain t dur left segs →
      ∀ k, left ≤ k → k < t.length →
        ∃! s, s ∈ segs ∧ s.1 ≤ k ∧ k < s.2 := by
  intro segs
  induction segs with
  | nil =>
    intro left h k hk1 hk2
    rw [SegChain_nil] at h
    omega
  | cons s0 rest ih =>
    intro left h k hk1 hk2
    have hcons := h
    rw [SegChain_cons] at hcons
    obtain ⟨h1, h2, h3, _, h5⟩ := hcons
    by_cases hks : k < s0.2
    · refine ⟨s0, ⟨List.mem_cons_self s0 rest, by omega, hks⟩, ?_⟩
      rintro s' ⟨hs'mem, hs'1, hs'2⟩
      rcases List.mem_cons.mp hs'mem with rfl | hmem
      · rfl
      · have := SegChain_seg_bounds t dur rest s0.2 h5 s' hmem
        omega
    · obtain ⟨s', hPs', huniq⟩ := ih s0.2 h5 k (by omega) hk2
      refine ⟨s', ⟨List.mem_cons_of_mem s0 hPs'.1, hPs'.2⟩, ?_⟩
      rintro s'' ⟨hs''mem, hc1, hc2⟩
      rcases List.mem_cons.mp hs''mem with rfl | hmem
      · omega
      · exact huniq s'' ⟨hmem, hc1, hc2⟩

lemma SegChain_span (t : List Int) (dur : Int)
    (hmono : ∀ i, i < t.length → ∀ j, j < t.length → i ≤ j →
      t.getD i 0 ≤ t.getD j 0) :
    ∀ (segs : List (Nat × Nat)) (left : Nat), SegChain t dur left segs →
      ∀ s ∈ segs, ∀ i j, s.1 ≤ i → i ≤ j → j < s.2 →
        t.getD j 0 - t.getD i 0 ≤ dur := by
  intro segs
  induction segs with
  | nil =>
    intro left _ s hs
    cases hs
  | cons s0 rest ih =>
    intro left h s hs
    rw [SegChain_cons] at h
    obtain ⟨h1, h2, h3, h4, h5⟩ := h
    rcases List.mem_cons.mp hs with rfl | hmem
    · intro i j hi hij hj
      have hanchor := h4 j (by omega) hj
      have hmono1 := hmono s.1 (by omega) i (by omega) hi
      omega
    · exact ih s0.2 h5 s hmem

/-- Claim C5: for a non-empty, sorted Event Record and a positive duration,
the index ranges produced by `integrate_events_by_fixed_duration` (via
`fixed_duration_segments`) form a gapless, non-overlapping, in-order chain
covering `[0, N)`: every event index lies in exactly one range, the per-
range counts sum to `N`, and every range spans at most `duration` time
units (max minus min timestamp within the range). -/
theorem duration_partition (ev : EventRecord) (duration : Int)
    (hN : 1 ≤ ev.t.length)
    (hmono : ∀ i, i < ev.t.length → ∀ j, j < ev.t.length → i ≤ j →
      ev.t.getD i 0 ≤ ev.t.getD j 0)
    (hdur : 1 ≤ duration) :
    ∃ segs, fixed_duration_segments ev duration = some segs ∧
      SegChain ev.t duration 0 segs ∧
      (segs.map (fun s => s.2 - s.1)).sum = ev.t.length ∧
      (∀ k, k < ev.t.length → ∃! s, s ∈ segs ∧ s.1 ≤ k ∧ k < s.2) ∧
      (∀ s ∈ segs, ∀ i j, s.1 ≤ i → i ≤ j → j < s.2 →
        ev.t.getD j 0 - ev.t.getD i 0 ≤ duration) := by
  obtain ⟨segs, hloop, hchain, _⟩ := durationLoop_spec ev.t duration
    (by omega) (ev.t.length + 1) 0 (by omega) (by omega)
  refine ⟨segs, hloop, hchain, ?_, ?_, ?_⟩
  · have := SegChain_sum ev.t duration segs 0 hchain
    omega
  · intro k hk
    exact SegChain_mem_unique ev.t duration segs 0 hchain k (by omega) hk
  · exact SegChain_span ev.t duration hmono segs 0 hchain

/-- Witness for C5: `t = [0, 1, 5, 6, 20]`, `duration = 2`. -/
theorem duration_partition_witness :
    (1 ≤ (⟨[0, 1, 5, 6, 20], [], [], []⟩ : EventRecord).t.length ∧
      (∀ i, i < (⟨[0, 1, 5, 6, 20], [], [], []⟩ : EventRecord).t.length →
        ∀ j, j < (⟨[0, 1, 5, 6, 20], [], [], []⟩ : EventRecord).t.length →
          i ≤ j →
          (⟨[0, 1, 5, 6, 20], [], [], []⟩ : EventRecord).t.getD i 0 ≤
            (⟨[0, 1, 5, 6, 20], [], [], []⟩ : EventRecord).t.getD j 0) ∧
      (1 : Int) ≤ 2) ∧
    ∃ segs,
      fixed_duration_segments ⟨[0, 1, 5, 6, 20], [], [], []⟩ 2 = some segs ∧
      SegChain (⟨[0, 1, 5, 6, 20], [], [], []⟩ : EventRecord).t 2 0 segs ∧
      (segs.map (fun s => s.2 - s.1)).sum =
        (⟨[0, 1, 5, 6, 20], [], [], []⟩ : EventRecord).t.length ∧
      (∀ k, k < (⟨[0, 1, 5, 6, 20], [], [], []⟩ : EventRecord).t.length →
        ∃! s, s ∈ segs ∧ s.1 ≤ k ∧ k < s.2) ∧
      (∀ s ∈ segs, ∀ i j, s.1 ≤ i → i ≤ j → j < s.2 →
        (⟨[0, 1, 5, 6, 20], [], [], []⟩ : EventRecord).t.getD j 0 -
          (⟨[0, 1, 5, 6, 20], [], [], []⟩ : EventRecord).t.getD i 0 ≤ 2) :=
  ⟨⟨by decide, by decide, by decide⟩,
    duration_partition ⟨[0, 1, 5, 6, 20], [], [], []⟩ 2
      (by decide) (by decide) (by decide)⟩

/-- Claim C10: for a non-empty record and any `duration ≥ 0` the
fixed-duration loop terminates — the fuelled model returns a result
within `N + 1` outer iterations — and produces at most `N` frames. -/
theorem duration_terminates (ev : EventRecord) (duration : Int)
    (hN : 1 ≤ ev.t.length) (hdur : 0 ≤ duration) :
    ∃ segs, fixed_duration_segments ev duration = some segs ∧
      segs.length ≤ ev.t.length := by
  obtain ⟨segs, hloop, _, hlen⟩ := durationLoop_spec ev.t duration hdur
    (ev.t.length + 1) 0 (by omega) (by omega)
  exact ⟨segs, hloop, by omega⟩

/-- Witness for C10: an unsorted record still terminates. -/
theorem duration_terminates_witness :
    (1 ≤ ([3, 1, 2] : List Int).length ∧ (0 : Int) ≤ 0) ∧
    ∃ segs, fixed_duration_segments ⟨[3, 1, 2], [], [], []⟩ 0 = some segs ∧
      segs.length ≤ ([3, 1, 2] : List Int).length :=
  ⟨⟨by decide, by decide⟩,
    duration_terminates ⟨[3, 1, 2], [], [], []⟩ 0 (by decide) (by decide)⟩

/-! ### Claim C4: `split_by = "time"` coverage -/

lemma mem_filter_range {N : Nat} {q : Nat → Bool} {k : Nat} :
    k ∈ (List.range N).filter q ↔ k < N ∧ q k := by
  simp [List.mem_filter]

lemma pairwise_head_le (a : Nat) (rest : List Nat)
    (h : (a :: rest).Pairwise (· < ·)) : ∀ k ∈ a :: rest, a ≤ k := by
  intro k hk
  rcases List.mem_cons.mp hk with rfl | hmem
  · exact le_rfl
  · exact le_of_lt ((List.pairwise_cons.mp h).1 k hmem)

lemma pairwise_le_getLast : ∀ (l : List Nat) (hne : l ≠ []),
    l.Pairwise (· < ·) → ∀ k ∈ l, k ≤ l.getLast hne := by
  intro l
  induction l with
  | nil => intro hne; cases hne rfl
  | cons a rest ih =>
    intro hne hpw k hk
    cases rest with
    | nil =>
      rcases List.mem_cons.mp hk with rfl | h
      · simp [List.getLast]
      · cases h
    | cons b u =>
      have hres : (b :: u) ≠ [] := by simp
      rw [List.getLast_cons hres]
      rcases List.mem_cons.mp hk with rfl | hmem
      · have hab : k < b :=
          (List.pairwise_cons.mp hpw).1 b (List.mem_cons_self _ _)
        have hb := ih hres (List.pairwise_cons.mp hpw).2 b
          (List.mem_cons_self _ _)
        omega
      · exact ih hres (List.pairwise_cons.mp hpw).2 k hmem

/-- If window `i` contains at least one event then `timeSegment` returns
`(a, last + 1)` where `a` is the least and `last` the greatest in-window
index. -/
lemma timeSegment_spec (t : List Int) (dt : Int) (i : Nat)
    (hex : ∃ k, k < t.length ∧ dt * (i : Int) + t.getD 0 0 ≤ t.getD k 0 ∧
      t.getD k 0 < dt * (i : Int) + t.getD 0 0 + dt) :
    ∃ a b, timeSegment t dt i = some (a, b) ∧
      a < t.length ∧ b ≤ t.length ∧ a < b ∧
      (dt * (i : Int) + t.getD 0 0 ≤ t.getD a 0 ∧
        t.getD a 0 < dt * (i : Int) + t.getD 0 0 + dt) ∧
      (b - 1 < t.length ∧ dt * (i : Int) + t.getD 0 0 ≤ t.getD (b - 1) 0 ∧
        t.getD (b - 1) 0 < dt * (i : Int) + t.getD 0 0 + dt) ∧
      (∀ k, k < t.length → dt * (i : Int) + t.getD 0 0 ≤ t.getD k 0 →
        t.getD k 0 < dt * (i : Int) + t.getD 0 0 + dt →
        a ≤ k ∧ k ≤ b - 1) := by
  obtain ⟨k0, hk0N, hk0l, hk0r⟩ := hex
  have hk0mem : k0 ∈ (List.range t.length).filter (fun k =>
      decide (dt * (i : Int) + t.getD 0 0 ≤ t.getD k 0) &&
      decide (t.getD k 0 < dt * (i : Int) + t.getD 0 0 + dt)) := by
    rw [mem_filter_range]
    simp only [Bool.and_eq_true, decide_eq_true_eq]
    exact ⟨hk0N, hk0l, hk0r⟩
  obtain ⟨a, rest, hM⟩ : ∃ a rest,
      (List.range t.length).filter (fun k =>
        decide (dt * (i : Int) + t.getD 0 0 ≤ t.getD k 0) &&
        decide (t.getD k 0 < dt * (i : Int) + t.getD 0 0 + dt)) = a :: rest := by
    cases hMc : (List.range t.length).filter (fun k =>
        decide (dt * (i : Int) + t.getD 0 0 ≤ t.getD k 0) &&
        decide (t.getD k 0 < dt * (i : Int) + t.getD 0 0 + dt)) with
    | nil => rw [hMc] at hk0mem; cases hk0mem
    | cons a rest => exact ⟨a, rest, rfl⟩
  have hpw : (a :: rest).Pairwise (· < ·) := by
    rw [← hM]
    exact (List.pairwise_lt_range t.length).sublist (List.filter_sublist _)
  have hmem_iff : ∀ k, k ∈ a :: rest ↔ k < t.length ∧
      (dt * (i : Int) + t.getD 0 0 ≤ t.getD k 0 ∧
        t.getD k 0 < dt * (i : Int) + t.getD 0 0 + dt) := by
    intro k
    rw [← hM, mem_filter_range]
    simp only [Bool.and_eq_true, decide_eq_true_eq]
  have hane : (a :: rest) ≠ [] := List.cons_ne_nil a rest
  set last := (a :: rest).getLast hane with hlast
  have hts : timeSegment t dt i = some (a, last + 1) := by
    simp only [timeSegment]
    rw [hM]
  have hamem := (hmem_iff a).mp (List.mem_cons_self a rest)
  have hlastmem := (hmem_iff last).mp (List.getLast_mem hane)
  have hmin := pairwise_head_le a rest hpw
  have hmax := pairwise_le_getLast (a :: rest) hane hpw
  have halast : a ≤ last := hmin last (List.getLast_mem hane)
  refine ⟨a, last + 1, hts, hamem.1, by omega, by omega, hamem.2, ?_, ?_⟩
  · simpa using hlastmem
  · intro k hkN hkl hkr
    have hkmem : k ∈ a :: rest := (hmem_iff k).mpr ⟨hkN, hkl, hkr⟩
    exact ⟨hmin k hkmem, by have := hmax k hkmem; omega⟩

lemma cal_time_eq (t : List Int) (M : Nat) (hM : M ≠ 0) :
    cal_fixed_frames_number_segment_index t "time" M =
      match timeSegList t
        (Int.fdiv (t.getD (t.length - 1) 0 - t.getD 0 0) (M : Int)) M with
      | none => none
      | some segs => some (setLast segs t.length) := by
  simp only [cal_fixed_frames_number_segment_index]
  rw [if_neg hM, if_neg (by decide : ¬ ("time" = "number")), if_pos trivial]

lemma timeSegList_eq (t : List Int) (dt : Int) (M : Nat)
    (h : ∀ i ∈ List.range M, (timeSegment t dt i).isSome) :
    timeSegList t dt M =
      some ((List.range M).map (fun i => (timeSegment t dt i).getD (0, 0))) := by
  rw [timeSegList, if_pos h]

lemma setLast_getD_fst (segs : List (Nat × Nat)) (N : Nat) {i : Nat}
    (h : i < segs.length) :
    ((setLast segs N).getD i (0, 0)).1 = (segs.getD i (0, 0)).1 := by
  by_cases hi : i + 1 = segs.length
  · rw [setLast_getD_last segs N hi]
  · rw [setLast_getD_of_lt segs N (by omega)]

/-- Claim C4: for a sorted record, when every time window
`[t0 + dt*i, t0 + dt*(i+1))` with `dt = (t[N-1] - t[0]) // M` contains at
least one event, the `split_by = "time"` planner succeeds and its ranges
are contiguous and exhaustive: `j_l[0] = 0`, `j_r[M-1] = N`, and
`j_r[i] = j_l[i+1]` for every `i < M-1`. -/
theorem time_split_contiguous (t : List Int) (M : Nat)
    (hN : 1 ≤ t.length) (hM : 1 ≤ M)
    (hmono : ∀ i, i < t.length → ∀ j, j < t.length → i ≤ j →
      t.getD i 0 ≤ t.getD j 0)
    (hwin : ∀ i, i < M → ∃ k, k < t.length ∧
      Int.fdiv (t.getD (t.length - 1) 0 - t.getD 0 0) (M : Int) * (i : Int) +
        t.getD 0 0 ≤ t.getD k 0 ∧
      t.getD k 0 < Int.fdiv (t.getD (t.length - 1) 0 - t.getD 0 0) (M : Int) *
        ((i : Int) + 1) + t.getD 0 0) :
    ∃ segs, cal_fixed_frames_number_segment_index t "time" M = some segs ∧
      segs.length = M ∧
      (segs.getD 0 (0, 0)).1 = 0 ∧
      (segs.getD (M - 1) (0, 0)).2 = t.length ∧
      (∀ i, i + 1 < M →
        (segs.getD i (0, 0)).2 = (segs.getD (i + 1) (0, 0)).1) := by
  set dt := Int.fdiv (t.getD (t.length - 1) 0 - t.getD 0 0) (M : Int) with hdt
  have hex : ∀ i, i < M → ∃ k, k < t.length ∧
      dt * (i : Int) + t.getD 0 0 ≤ t.getD k 0 ∧
      t.getD k 0 < dt * (i : Int) + t.getD 0 0 + dt := by
    intro i hi
    obtain ⟨k, h1, h2, h3⟩ := hwin i hi
    refine ⟨k, h1, h2, ?_⟩
    have hr : dt * ((i : Int) + 1) + t.getD 0 0 =
        dt * (i : Int) + t.getD 0 0 + dt := by ring
    rw [hr] at h3
    exact h3
  have hspec := fun (i : Nat) (hi : i < M) => timeSegment_spec t dt i (hex i hi)
  have hsome : ∀ i ∈ List.range M, (timeSegment t dt i).isSome := by
    intro i hi
    obtain ⟨a, b, hab, _⟩ := hspec i (List.mem_range.mp hi)
    rw [hab]
    rfl
  have hcal : cal_fixed_frames_number_segment_index t "time" M =
      some (setLast ((List.range M).map
        (fun i => (timeSegment t dt i).getD (0, 0))) t.length) := by
    rw [cal_time_eq t M (by omega), ← hdt, timeSegList_eq t dt M hsome]
  have hmaplen : ((List.range M).map
      (fun i => (timeSegment t dt i).getD (0, 0))).length = M := by
    simp
  have hFgetD : ∀ i, i < M →
      ((List.range M).map (fun i => (timeSegment t dt i).getD (0, 0))).getD
        i (0, 0) = (timeSegment t dt i).getD (0, 0) :=
    fun i hi => getD_map_range _ _ hi
  refine ⟨_, hcal, by rw [setLast_length, hmaplen], ?_, ?_, ?_⟩
  · obtain ⟨a, b, hab, haN, hbN, hablt, ⟨hal, har⟩, _, hminmax⟩ :=
      hspec 0 (by omega)
    have hcast0 : dt * ((0 : Nat) : Int) = 0 := by simp
    rw [hcast0] at hal har
    have hdtpos : 0 < dt := by linarith
    have hc1 : dt * ((0 : Nat) : Int) + t.getD 0 0 ≤ t.getD 0 0 := by
      rw [hcast0]; linarith
    have hc2 : t.getD 0 0 < dt * ((0 : Nat) : Int) + t.getD 0 0 + dt := by
      rw [hcast0]; linarith
    have ha0 := (hminmax 0 (by omega) hc1 hc2).1
    rw [setLast_getD_fst _ _ (by rw [hmaplen]; omega), hFgetD 0 (by omega),
      hab]
    show a = 0
    omega
  · have hidx : M - 1 + 1 = ((List.range M).map
        (fun i => (timeSegment t dt i).getD (0, 0))).length := by
      rw [hmaplen]
      omega
    rw [setLast_getD_last _ _ hidx]
  · intro i hi
    obtain ⟨a1, b1, hab1, haN1, hbN1, hlt1, hw1, hwlast1, hminmax1⟩ :=
      hspec i (by omega)
    obtain ⟨a2, b2, hab2, haN2, hbN2, hlt2, hw2, hwlast2, hminmax2⟩ :=
      hspec (i + 1) (by omega)
    rw [setLast_getD_of_lt _ _ (by rw [hmaplen]; omega),
      setLast_getD_fst _ _ (by rw [hmaplen]; omega),
      hFgetD i (by omega), hFgetD (i + 1) (by omega), hab1, hab2]
    show b1 = a2
    have hcast : dt * ((i + 1 : Nat) : Int) + t.getD 0 0 =
        dt * (i : Int) + t.getD 0 0 + dt := by push_cast; ring
    have h1 : b1 ≤ a2 := by
      by_contra hcon
      push_neg at hcon
      have hm := hmono a2 haN2 (b1 - 1) hwlast1.1 (by omega)
      have hlower := hw2.1
      rw [hcast] at hlower
      linarith [hwlast1.2.2]
    have hb1N : b1 < t.length := by omega
    have hnotwin : ¬ (dt * (i : Int) + t.getD 0 0 ≤ t.getD b1 0 ∧
        t.getD b1 0 < dt * (i : Int) + t.getD 0 0 + dt) := by
      rintro ⟨hc1, hc2⟩
      have := (hminmax1 b1 hb1N hc1 hc2).2
      omega
    have hge : dt * (i : Int) + t.getD 0 0 ≤ t.getD b1 0 := by
      have := hmono (b1 - 1) hwlast1.1 b1 hb1N (by omega)
      linarith [hwlast1.2.1]
    have hb1r : dt * (i : Int) + t.getD 0 0 + dt ≤ t.getD b1 0 := by
      by_contra hcon
      push_neg at hcon
      exact hnotwin ⟨hge, hcon⟩
    have hb1upper : t.getD b1 0 < dt * ((i + 1 : Nat) : Int) +
        t.getD 0 0 + dt := by
      have hmle := hmono b1 hb1N a2 haN2 h1
      linarith [hw2.2]
    have h2 : a2 ≤ b1 :=
      (hminmax2 b1 hb1N (by rw [hcast]; exact hb1r) hb1upper).1
    omega

/-- Witness for C4: `t = [0, 1, 2, 3]`, `M = 2`, `dt = 1`; both windows
`[0, 1)` and `[1, 2)` contain an event. -/
theorem time_split_contiguous_witness :
    (1 ≤ ([0, 1, 2, 3] : List Int).length ∧ 1 ≤ 2 ∧
      (∀ i, i < ([0, 1, 2, 3] : List Int).length →
        ∀ j, j < ([0, 1, 2, 3] : List Int).length → i ≤ j →
          List.getD [0, 1, 2, 3] i 0 ≤ List.getD [0, 1, 2, 3] j 0) ∧
      (∀ i : Nat, i < 2 → ∃ k, k < ([0, 1, 2, 3] : List Int).length ∧
        Int.fdiv (List.getD [0, 1, 2, 3] (([0, 1, 2, 3] : List Int).length - 1) 0 -
          List.getD [0, 1, 2, 3] 0 0) ((2 : Nat) : Int) * (i : Int) +
          List.getD [0, 1, 2, 3] 0 0 ≤ List.getD [0, 1, 2, 3] k 0 ∧
        List.getD [0, 1, 2, 3] k 0 <
          Int.fdiv (List.getD [0, 1, 2, 3] (([0, 1, 2, 3] : List Int).length - 1) 0 -
            List.getD [0, 1, 2, 3] 0 0) ((2 : Nat) : Int) * ((i : Int) + 1) +
            List.getD [0, 1, 2, 3] 0 0)) ∧
    ∃ segs,
      cal_fixed_frames_number_segment_index [0, 1, 2, 3] "time" 2 = some segs ∧
      segs.length = 2 ∧
      (segs.getD 0 (0, 0)).1 = 0 ∧
      (segs.getD (2 - 1) (0, 0)).2 = ([0, 1, 2, 3] : List Int).length ∧
      (∀ i, i + 1 < 2 →
        (segs.getD i (0, 0)).2 = (segs.getD (i + 1) (0, 0)).1) :=
  ⟨⟨by decide, by decide, by decide, by
      intro i hi
      rcases i with _ | (_ | i)
      · exact ⟨0, by decide, by decide, by decide⟩
      · exact ⟨1, by decide, by decide, by decide⟩
      · omega⟩,
    time_split_contiguous [0, 1, 2, 3] 2 (by decide) (by decide)
      (by decide) (by
        intro i hi
        rcases i with _ | (_ | i)
        · exact ⟨0, by decide, by decide, by decide⟩
        · exact ⟨1, by decide, by decide, by decide⟩
        · omega)⟩

end SpikingJelly
